import Mathlib

/-!
# Verification of the lokalise-listener braze core

Shallow embedding of `braze/utils.go`: the Braze template-string extractor
(`extractBrazeStrings` and the fixed regular expression
`brazeStringRegexpStr`), and the TTL strings cache (`stringsCache` with
`Get`/`Store`/`Touch`/`Evict`/`getKey`).

Go strings are modelled as `List Char` (sequences of Unicode scalar
values); byte payloads as `List Nat`; `time.Time` as a `Nat` count of
nanoseconds.  Pointer-valued cache cells are modelled with an explicit
address heap so that Go's copy-on-`Get` semantics is visible.
-/

/-- A Go string, modelled as its sequence of Unicode scalar values. -/
abbrev Str := List Char

/-- Convert a Lean string literal to the `Str` model. -/
def strL (s : String) : Str := s.toList

/-! ## The placeholder matcher

`brazeStringRegexpStr` is the fixed pattern

`{{[ \t]*strings\.(?P<key>.+?)[ \t]*\|[ \t]*default:[ \t]*(?:'|")(?P<default>.+?)(?:'|")[ \t]*}}`

compiled with Go's `regexp` package, which uses leftmost-first (Perl-style)
matching: the match starts at the earliest possible position, `X*` over a
character class followed by a literal outside the class is maximal munch,
and a lazy `.+?` consumes as few characters (never a newline) as allow the
rest of the pattern to match.  The functions below implement exactly this
search for the fixed pattern. -/

/-- A space or tab, the character class `[ \t]`. -/
def wsp (c : Char) : Bool := c = ' ' || c = '\t'

/-- Consume `[ \t]*` (maximal munch; every continuation in the pattern
starts with a character outside the class, so this is exact). -/
def skipWS (l : Str) : Str := l.dropWhile wsp

/-- Consume an exact literal, returning the remainder. -/
def takeLit : Str → Str → Option Str
  | [], s => some s
  | _ :: _, [] => none
  | c :: cs, d :: ds => if c = d then takeLit cs ds else none

/-- Try the pattern tail `(?:'|")[ \t]*}}` that closes the quoted default
value. -/
def tryClose : Str → Option Str
  | [] => none
  | c :: rest =>
    if c = '\'' || c = '"' then
      match skipWS rest with
      | a :: b :: r => if a = '}' && b = '}' then some r else none
      | _ => none
    else none

/-- The lazy `(?P<default>.+?)` capture: consume at least one non-newline
character, and after each character first try to close the match
(`tryClose`); shortest success wins. -/
def defaultLoop (acc : Str) : Str → Option (Str × Str)
  | [] => none
  | c :: rest =>
    if c = '\n' then none
    else
      match tryClose rest with
      | some rest' => some (acc ++ [c], rest')
      | none => defaultLoop (acc ++ [c]) rest

/-- Try the pattern tail after the key capture:
`[ \t]*\|[ \t]*default:[ \t]*(?:'|")` followed by the default capture.
Returns the default value and the remainder after the whole match. -/
def tryCont (l : Str) : Option (Str × Str) :=
  match skipWS l with
  | [] => none
  | a :: r1 =>
    if a = '|' then
      match takeLit (strL "default:") (skipWS r1) with
      | some r2 =>
        match skipWS r2 with
        | c :: r3 => if c = '\'' || c = '"' then defaultLoop [] r3 else none
        | [] => none
      | none => none
    else none

/-- The lazy `(?P<key>.+?)` capture: consume at least one non-newline
character, and after each character first try the continuation
(`tryCont`); shortest success wins.  Returns key, default and the
remainder after the whole match. -/
def keyLoop (acc : Str) : Str → Option (Str × Str × Str)
  | [] => none
  | c :: rest =>
    if c = '\n' then none
    else
      match tryCont rest with
      | some (d, rest') => some (acc ++ [c], d, rest')
      | none => keyLoop (acc ++ [c]) rest

/-- Attempt an anchored match of the pattern at the start of `l`:
`{{`, then `[ \t]*`, then the literal `strings.`, then the captures. -/
def matchAt (l : Str) : Option (Str × Str × Str) :=
  match l with
  | a :: b :: r =>
    if a = '{' && b = '{' then
      match takeLit (strL "strings.") (skipWS r) with
      | some r2 => keyLoop [] r2
      | none => none
    else none
  | _ => none

/-- One scan step of `FindAllStringSubmatch`: successive leftmost matches,
resuming after the end of each match.  Each reported match is the list
`[full, key, default]` (full match plus the two capture groups), as in Go
where a match is a `[]string` of length `1 + number of groups = 3`.
The fuel argument is the scan-position budget; `brazeFindAll` passes the
input length, which suffices because every step consumes at least one
character (`matchAt_length` below). -/
def findAllAux : Nat → Str → List (List Str)
  | 0, _ => []
  | _ + 1, [] => []
  | fuel + 1, c :: rest =>
    match matchAt (c :: rest) with
    | some (k, d, rest') =>
      [(c :: rest).take ((c :: rest).length - rest'.length), k, d] ::
        findAllAux fuel rest'
    | none => findAllAux fuel rest

/-- `brazeStringRegexp.FindAllStringSubmatch(template, -1)`. -/
def brazeFindAll (l : Str) : List (List Str) := findAllAux l.length l

/-! ### The scan consumes at least one character per step

These bounds justify the fuel choice in `brazeFindAll`. -/

theorem skipWS_length (l : Str) : (skipWS l).length ≤ l.length := by
  induction l with
  | nil => exact Nat.le_refl _
  | cons c rest ih =>
    simp only [skipWS, List.dropWhile_cons] at *
    split
    · exact Nat.le_trans ih (Nat.le_succ _)
    · exact Nat.le_refl _

theorem takeLit_length : ∀ p l r, takeLit p l = some r → r.length ≤ l.length := by
  intro p
  induction p with
  | nil => intro l r h; cases h; exact Nat.le_refl _
  | cons c cs ih =>
    intro l r h
    cases l with
    | nil => cases h
    | cons d ds =>
      simp only [takeLit] at h
      split at h
      · exact Nat.le_trans (ih ds r h) (Nat.le_succ _)
      · cases h

theorem tryClose_length : ∀ l r, tryClose l = some r → r.length < l.length := by
  intro l r h
  cases l with
  | nil => cases h
  | cons c rest =>
    simp only [tryClose] at h
    split at h
    · cases hw : skipWS rest with
      | nil => rw [hw] at h; cases h
      | cons a tl =>
        rw [hw] at h
        cases tl with
        | nil => simp at h
        | cons b tl2 =>
          have h1 : tl2.length + 2 = (skipWS rest).length := by
            rw [hw]; simp
          have h2 := skipWS_length rest
          simp only [] at h
          split at h
          · cases h
            simp only [List.length_cons]
            omega
          · cases h
    · cases h

theorem defaultLoop_length :
    ∀ l acc d r, defaultLoop acc l = some (d, r) → r.length < l.length := by
  intro l
  induction l with
  | nil => intro acc d r h; cases h
  | cons c rest ih =>
    intro acc d r h
    simp only [defaultLoop] at h
    split at h
    · cases h
    · cases hc : tryClose rest with
      | none =>
        rw [hc] at h
        exact Nat.lt_trans (ih _ _ _ h) (Nat.lt_succ_self _)
      | some rest' =>
        rw [hc] at h
        cases h
        exact Nat.lt_trans (tryClose_length rest _ hc) (Nat.lt_succ_self _)

theorem tryCont_length : ∀ l d r, tryCont l = some (d, r) → r.length < l.length := by
  intro l d r h
  simp only [tryCont] at h
  cases hw : skipWS l with
  | nil => rw [hw] at h; cases h
  | cons a tl =>
    rw [hw] at h
    have hwl : tl.length < l.length := by
      have h1 : tl.length + 1 = (skipWS l).length := by rw [hw]; simp
      have h2 := skipWS_length l
      omega
    simp only [] at h
    split at h
    · cases hlit : takeLit (strL "default:") (skipWS tl) with
      | none => rw [hlit] at h; cases h
      | some r2 =>
        rw [hlit] at h
        simp only [] at h
        have hr2 : r2.length ≤ tl.length :=
          Nat.le_trans (takeLit_length _ _ _ hlit) (skipWS_length tl)
        cases hw2 : skipWS r2 with
        | nil => rw [hw2] at h; cases h
        | cons b r3 =>
          rw [hw2] at h
          have hr3 : r3.length < r2.length + 1 := by
            have h1 : r3.length + 1 = (skipWS r2).length := by rw [hw2]; simp
            have h2 := skipWS_length r2
            omega
          simp only [] at h
          split at h
          · have := defaultLoop_length r3 [] d r h
            omega
          · cases h
    · cases h

theorem keyLoop_length :
    ∀ l acc k d r, keyLoop acc l = some (k, d, r) → r.length < l.length := by
  intro l
  induction l with
  | nil => intro acc k d r h; cases h
  | cons c rest ih =>
    intro acc k d r h
    simp only [keyLoop] at h
    split at h
    · cases h
    · cases hc : tryCont rest with
      | none =>
        rw [hc] at h
        exact Nat.lt_trans (ih _ _ _ _ h) (Nat.lt_succ_self _)
      | some p =>
        rw [hc] at h
        cases h
        exact Nat.lt_trans (tryCont_length rest _ _ hc) (Nat.lt_succ_self _)

theorem matchAt_length : ∀ l k d r, matchAt l = some (k, d, r) → r.length < l.length := by
  intro l k d r h
  cases l with
  | nil => cases h
  | cons a l1 =>
    cases l1 with
    | nil => cases h
    | cons b l2 =>
      simp only [matchAt] at h
      split at h
      · cases hlit : takeLit (strL "strings.") (skipWS l2) with
        | none => rw [hlit] at h; cases h
        | some r2 =>
          rw [hlit] at h
          have hr2 : r2.length ≤ l2.length :=
            Nat.le_trans (takeLit_length _ _ _ hlit) (skipWS_length l2)
          have := keyLoop_length r2 [] k d r h
          simp only [List.length_cons]
          omega
      · cases h

/-- With at least `l.length` fuel the scan result no longer depends on the
fuel, so the budget passed by `brazeFindAll` is sufficient. -/
theorem findAllAux_fuel :
    ∀ fuel l, l.length ≤ fuel → findAllAux fuel l = findAllAux l.length l := by
  intro fuel
  induction fuel using Nat.strong_induction_on with
  | _ fuel ih =>
    intro l hl
    cases fuel with
    | zero =>
      cases l with
      | nil => rfl
      | cons c rest => simp at hl
    | succ f =>
      cases l with
      | nil => rfl
      | cons c rest =>
        simp only [List.length_cons] at hl
        simp only [findAllAux, List.length_cons]
        cases hm : matchAt (c :: rest) with
        | none =>
          simp only []
          rw [ih f (Nat.lt_succ_self _) rest (by omega)]
        | some p =>
          obtain ⟨k, d, rest'⟩ := p
          have hlt := matchAt_length _ _ _ _ hm
          simp only [List.length_cons] at hlt
          simp only []
          rw [ih f (Nat.lt_succ_self _) rest' (by omega)]
          rw [ih rest.length (by omega) rest' (by omega)]

/-! ## `strings.ReplaceAll`

`strings.ReplaceAll(s, old, new)` replaces every non-overlapping, leftmost
occurrence of `old` by `new`, scanning left to right and resuming after
each replacement.  The extractor only calls it with the two-character
patterns `[[` and `]]`; the empty-pattern behaviour of Go (which would
splice `new` between runes) never arises and is guarded away so that the
fuelled loop below is exact: each step consumes at least one character,
hence `s.length` fuel suffices. -/

/-- Is `p` a prefix of `l`? -/
def isPre : Str → Str → Bool
  | [], _ => true
  | _ :: _, [] => false
  | c :: cs, d :: ds => c = d && isPre cs ds

def replaceLoop (old nw : Str) : Nat → Str → Str
  | 0, s => s
  | _ + 1, [] => []
  | fuel + 1, c :: rest =>
    if isPre old (c :: rest) then nw ++ replaceLoop old nw fuel ((c :: rest).drop old.length)
    else c :: replaceLoop old nw fuel rest

/-- `strings.ReplaceAll(s, old, new)` for nonempty `old`. -/
def goReplaceAll (s old nw : Str) : Str :=
  if old = [] then s else replaceLoop old nw s.length s

/-- The two `ReplaceAll` calls the extractor applies to each captured
default value: `[[` ↦ `{{`, then `]]` ↦ `}}`. -/
def bracketConv (s : Str) : Str :=
  goReplaceAll (goReplaceAll s (strL "[[") (strL "\x7b\x7b")) (strL "]]") (strL "\x7d\x7d")

/-! ## The Go map `map[string]string`

Modelled as an association list with unique keys; assignment
`m[k] = v` overwrites in place or appends. -/

/-- Go map lookup `m[k]`. -/
def mapFind (k : Str) : List (Str × Str) → Option Str
  | [] => none
  | (k', v) :: rest => if k' = k then some v else mapFind k rest

/-- Go map assignment `m[k] = v`. -/
def mapInsert (k v : Str) : List (Str × Str) → List (Str × Str)
  | [] => [(k, v)]
  | (k', v') :: rest =>
    if k' = k then (k, v) :: rest else (k', v') :: mapInsert k v rest

theorem mapFind_mapInsert (k k' v : Str) :
    ∀ m, mapFind k (mapInsert k' v m) = if k' = k then some v else mapFind k m := by
  intro m
  induction m with
  | nil => simp [mapInsert, mapFind]
  | cons p rest ih =>
    obtain ⟨k2, v2⟩ := p
    by_cases h2 : k2 = k'
    · subst h2
      by_cases h1 : k2 = k <;> simp [mapInsert, mapFind, h1]
    · by_cases h1 : k2 = k
      · subst h1
        have : ¬ k' = k2 := fun h => h2 h.symm
        simp [mapInsert, mapFind, h2, this]
      · simp [mapInsert, mapFind, h2, h1, ih]

/-! ## The extractor `extractBrazeStrings` -/

/-- The loop body of `extractBrazeStrings`: for each reported match, check
the defensive arity invariant (`len(match) != 3` aborts with an error,
modelled as `none`), convert the escaped brackets in the default-value
capture, and assign `stringMap[key] = converted`. -/
def buildStringMap : List (List Str) → List (Str × Str) → Option (List (Str × Str))
  | [], acc => some acc
  | m :: rest, acc =>
    match m with
    | [_, k, d] => buildStringMap rest (mapInsert k (bracketConv d) acc)
    | _ => none

/-- `extractBrazeStrings(template)`: run the regex scan; zero matches yield
the empty map and no error; otherwise fold the matches into a map.
`none` models the Go error return. -/
def extractBrazeStrings (template : Str) : Option (List (Str × Str)) :=
  let ms := brazeFindAll template
  if ms = [] then some [] else buildStringMap ms []

example :
    extractBrazeStrings
      (strL "Hi \x7b\x7b strings.greeting | default:\"Hello [[name]]\" \x7d\x7d") =
    some [(strL "greeting", strL "Hello \x7b\x7bname\x7d\x7d")] := by decide

/-! ## The TTL strings cache

`stringsCache` wraps a `sync.Map` whose values are pointers
`*stringsCacheValue`.  To make Go's pointer semantics explicit the model
carries an address heap: `entries` maps cache keys to addresses, `heap`
maps addresses to `stringsCacheValue` structs, and every allocation takes
a fresh address.  `time.Now()` becomes an explicit `now : Nat` parameter
(nanoseconds); `5 * time.Second` is `5 * second`. -/

/-- `time.Second` in nanoseconds. -/
def second : Nat := 1000000000

/-- `stringsCacheValue`: an eviction deadline plus the cached bytes. -/
structure StringsCacheValue where
  evictionTime : Nat
  data : List Nat
deriving DecidableEq

/-- The cache: key → address, address → value, next fresh address. -/
structure CacheState where
  entries : List (Str × Nat)
  heap : List (Nat × StringsCacheValue)
  nextAddr : Nat
deriving DecidableEq

/-- The empty cache `stringsCache{}`. -/
def emptyCache : CacheState := ⟨[], [], 0⟩

/-- Dereference an address. -/
def heapRead (st : CacheState) (a : Nat) : Option StringsCacheValue :=
  go st.heap
where go : List (Nat × StringsCacheValue) → Option StringsCacheValue
  | [] => none
  | (a', v) :: rest => if a' = a then some v else go rest

/-- Address lookup in the key map (`sync.Map.Load`). -/
def entriesFind (k : Str) : List (Str × Nat) → Option Nat
  | [] => none
  | (k', a) :: rest => if k' = k then some a else entriesFind k rest

/-- `sync.Map.Store` on the key map. -/
def entriesInsert (k : Str) (a : Nat) : List (Str × Nat) → List (Str × Nat)
  | [] => [(k, a)]
  | (k', a') :: rest =>
    if k' = k then (k, a) :: rest else (k', a') :: entriesInsert k a rest

/-- `newStringsCacheValue(data)`: allocate the struct and `Touch()` it, so
`evictionTime = time.Now().Add(5 * time.Second)`.  Returns the new
pointer (address) and the state after allocation. -/
def newStringsCacheValue (st : CacheState) (d : List Nat) (now : Nat) :
    Nat × CacheState :=
  (st.nextAddr,
   { st with
     heap := (st.nextAddr, ⟨now + 5 * second, d⟩) :: st.heap
     nextAddr := st.nextAddr + 1 })

/-- `(value *stringsCacheValue) Touch()`: in-place update through the
pointer, `value.evictionTime = time.Now().Add(5 * time.Second)`. -/
def touchAddr (st : CacheState) (a : Nat) (now : Nat) : CacheState :=
  { st with
    heap := st.heap.map fun p =>
      if p.1 = a then (p.1, ⟨now + 5 * second, p.2.data⟩) else p }

/-- `(value stringsCacheValue) GetData()`. -/
def getData (v : StringsCacheValue) : List Nat := v.data

/-- `(value stringsCacheValue) IsExpired()`: `time.Now().After(evictionTime)`
(strictly after). -/
def isExpired (v : StringsCacheValue) (now : Nat) : Bool :=
  v.evictionTime < now

/-- `(cache *stringsCache) Store(key, value)` with an existing pointer. -/
def cacheStore (st : CacheState) (k : Str) (a : Nat) : CacheState :=
  { st with entries := entriesInsert k a st.entries }

/-- `(cache *stringsCache) Get(key)`: `Load`, and on a hit return a fresh
pointer to a copy of the struct (`valueCopy := *value; return &valueCopy`).
Returns the copy's address (or `none` on a miss) and the state after the
copy's allocation. -/
def cacheGet (st : CacheState) (k : Str) : Option Nat × CacheState :=
  match entriesFind k st.entries with
  | some a =>
    match heapRead st a with
    | some v =>
      (some st.nextAddr,
       { st with
         heap := (st.nextAddr, v) :: st.heap
         nextAddr := st.nextAddr + 1 })
    | none => (none, st)
  | none => (none, st)

/-- `(cache *stringsCache) Evict()`: range over all entries and delete
every key whose value `IsExpired()`. -/
def cacheEvict (st : CacheState) (now : Nat) : CacheState :=
  { st with
    entries := st.entries.filter fun p =>
      match heapRead st p.2 with
      | some v => !isExpired v now
      | none => true }

/-- Well-formedness: every heap address and every address stored in the
key map is below the allocation counter (all of Go's live pointers came
from an allocation). -/
def CacheWF (st : CacheState) : Prop :=
  (∀ p ∈ st.heap, p.1 < st.nextAddr) ∧ (∀ e ∈ st.entries, e.2 < st.nextAddr)

instance (st : CacheState) : Decidable (CacheWF st) := by
  unfold CacheWF; infer_instance

/-! ### Heap and entry-map lemmas -/

theorem entriesFind_insert_self (k : Str) (a : Nat) :
    ∀ es, entriesFind k (entriesInsert k a es) = some a := by
  intro es
  induction es with
  | nil => simp [entriesInsert, entriesFind]
  | cons p rest ih =>
    obtain ⟨k', a'⟩ := p
    by_cases h : k' = k
    · subst h; simp [entriesInsert, entriesFind]
    · simp [entriesInsert, entriesFind, h, ih]

theorem entriesFind_eq_none_of_not_mem (k : Str) :
    ∀ es : List (Str × Nat), k ∉ es.map Prod.fst → entriesFind k es = none := by
  intro es
  induction es with
  | nil => intro _; rfl
  | cons p rest ih =>
    obtain ⟨k', a'⟩ := p
    intro h
    simp only [List.map_cons, List.mem_cons] at h
    push_neg at h
    have hne : k' ≠ k := fun he => h.1 he.symm
    simp [entriesFind, hne, ih h.2]

theorem entriesFind_isSome_of_mem (k : Str) :
    ∀ es : List (Str × Nat), k ∈ es.map Prod.fst → (entriesFind k es).isSome = true := by
  intro es
  induction es with
  | nil => intro h; cases h
  | cons p rest ih =>
    obtain ⟨k', a'⟩ := p
    intro h
    simp only [List.map_cons, List.mem_cons] at h
    by_cases he : k' = k
    · simp [entriesFind, he]
    · have : k ∈ rest.map Prod.fst := by
        cases h with
        | inl h1 => exact absurd h1.symm he
        | inr h2 => exact h2
      simp [entriesFind, he, ih this]

theorem entriesInsert_keys (k : Str) (a : Nat) :
    ∀ es : List (Str × Nat),
      (entriesInsert k a es).map Prod.fst =
        if (entriesFind k es).isSome then es.map Prod.fst
        else es.map Prod.fst ++ [k] := by
  intro es
  induction es with
  | nil => simp [entriesInsert, entriesFind]
  | cons p rest ih =>
    obtain ⟨k', a'⟩ := p
    by_cases h : k' = k
    · subst h; simp [entriesInsert, entriesFind]
    · simp only [entriesInsert, entriesFind, if_neg h, List.map_cons, ih]
      split <;> simp

theorem entriesInsert_nodup (k : Str) (a : Nat)
    (es : List (Str × Nat)) (h : (es.map Prod.fst).Nodup) :
    ((entriesInsert k a es).map Prod.fst).Nodup := by
  rw [entriesInsert_keys]
  split
  · exact h
  · next hns =>
    have : k ∉ es.map Prod.fst := by
      intro hmem
      rw [entriesFind_isSome_of_mem k es hmem] at hns
      exact hns rfl
    simp [List.nodup_append, h, this]

theorem heapReadGo_touch (a : Nat) (now : Nat) :
    ∀ h v, heapRead.go a h = some v →
      heapRead.go a
        (h.map fun p => if p.1 = a then (p.1, ⟨now + 5 * second, p.2.data⟩) else p) =
        some ⟨now + 5 * second, v.data⟩ := by
  intro h
  induction h with
  | nil => intro v hv; cases hv
  | cons p rest ih =>
    obtain ⟨a', v'⟩ := p
    intro v hv
    by_cases he : a' = a
    · subst he
      simp only [heapRead.go, if_pos rfl] at hv
      cases hv
      simp only [List.map_cons, eq_self_iff_true, if_true]
      simp [heapRead.go]
    · simp only [heapRead.go, if_neg he] at hv
      simp only [List.map_cons]
      rw [if_neg he]
      simp only [heapRead.go, if_neg he]
      exact ih v hv

theorem heapReadGo_touch_ne (a a' : Nat) (now : Nat) (hne : a' ≠ a) :
    ∀ h, heapRead.go a'
        (h.map fun p => if p.1 = a then (p.1, ⟨now + 5 * second, p.2.data⟩) else p) =
      heapRead.go a' h := by
  intro h
  induction h with
  | nil => rfl
  | cons p rest ih =>
    obtain ⟨a0, v0⟩ := p
    by_cases he : a0 = a
    · subst he
      have h0 : a0 ≠ a' := fun h0 => hne h0.symm
      simp only [List.map_cons, eq_self_iff_true, if_true]
      simp only [heapRead.go, if_neg h0]
      exact ih
    · simp only [List.map_cons]
      rw [if_neg he]
      by_cases h0 : a0 = a'
      · subst h0; simp [heapRead.go]
      · simp only [heapRead.go, if_neg h0]
        exact ih

theorem entriesFind_filter (P : Str × Nat → Bool) (k : Str) :
    ∀ es : List (Str × Nat), (es.map Prod.fst).Nodup →
      entriesFind k (es.filter P) =
        match entriesFind k es with
        | some a => if P (k, a) then some a else none
        | none => none := by
  intro es
  induction es with
  | nil => intro _; rfl
  | cons p rest ih =>
    obtain ⟨k', a'⟩ := p
    intro hnd
    simp only [List.map_cons, List.nodup_cons] at hnd
    obtain ⟨hk', hrest⟩ := hnd
    by_cases he : k' = k
    · subst he
      simp only [entriesFind, if_pos rfl, List.filter_cons]
      by_cases hp : P (k', a') = true
      · simp [entriesFind, hp]
      · simp only [hp]
        have hnm : k' ∉ (rest.filter P).map Prod.fst := by
          intro hm
          obtain ⟨q, hq, hfst⟩ := List.mem_map.1 hm
          exact hk' (List.mem_map.2 ⟨q, (List.mem_filter.1 hq).1, hfst⟩)
        simp only [Bool.false_eq_true, if_false]
        rw [entriesFind_eq_none_of_not_mem _ _ hnm]
        simp [hp]
    · simp only [entriesFind, if_neg he, List.filter_cons]
      by_cases hp : P (k', a') = true
      · simp [entriesFind, hp, he, ih hrest]
      · simp only [hp, Bool.false_eq_true, if_false]
        exact ih hrest

/-- The eviction predicate used by `cacheEvict`. -/
def keepEntry (st : CacheState) (now : Nat) (p : Str × Nat) : Bool :=
  match heapRead st p.2 with
  | some v => !isExpired v now
  | none => true

theorem cacheEvict_eq (st : CacheState) (now : Nat) :
    cacheEvict st now = { st with entries := st.entries.filter (keepEntry st now) } := rfl


theorem heapRead_go_eq (st : CacheState) (a : Nat) :
    heapRead st a = heapRead.go a st.heap := rfl

/-- Observable effect of `Evict` through `Get`: a key is found after the
sweep exactly when it was mapped to an unexpired value before it. -/
theorem evictGet_char (st : CacheState) (now : Nat) (k : Str)
    (hnd : (st.entries.map Prod.fst).Nodup) :
    (cacheGet (cacheEvict st now) k).1.isSome = true ↔
      ∃ a v, entriesFind k st.entries = some a ∧ heapRead st a = some v ∧
        isExpired v now = false := by
  have hfe := entriesFind_filter (keepEntry st now) k st.entries hnd
  cases hf : entriesFind k st.entries with
  | none =>
    rw [hf] at hfe
    simp only [] at hfe
    constructor
    · intro hs
      exfalso
      simp only [cacheGet, cacheEvict_eq, hfe] at hs
      simp at hs
    · rintro ⟨a, v, hfa, _, _⟩
      cases hfa
  | some a =>
    rw [hf] at hfe
    simp only [] at hfe
    cases hv : heapRead st a with
    | none =>
      have hkeep : keepEntry st now (k, a) = true := by
        simp [keepEntry, hv]
      rw [if_pos hkeep] at hfe
      constructor
      · intro hs
        exfalso
        rw [heapRead_go_eq] at hv
        simp only [cacheGet, cacheEvict_eq, hfe, heapRead_go_eq, hv] at hs
        simp at hs
      · rintro ⟨a', v', hfa, hva, _⟩
        cases hfa
        rw [hv] at hva
        cases hva
    | some v =>
      cases hexp : isExpired v now with
      | true =>
        have hkeep : keepEntry st now (k, a) = false := by
          simp [keepEntry, hv, hexp]
        rw [if_neg (by simp [hkeep])] at hfe
        constructor
        · intro hs
          exfalso
          simp only [cacheGet, cacheEvict_eq, hfe] at hs
          simp at hs
        · rintro ⟨a', v', hfa, hva, hexpf⟩
          cases hfa
          rw [hv] at hva
          cases hva
          rw [hexp] at hexpf
          cases hexpf
      | false =>
        have hkeep : keepEntry st now (k, a) = true := by
          simp [keepEntry, hv, hexp]
        rw [if_pos hkeep] at hfe
        constructor
        · intro _
          exact ⟨a, v, rfl, hv, hexp⟩
        · intro _
          rw [heapRead_go_eq] at hv
          simp only [cacheGet, cacheEvict_eq, hfe, heapRead_go_eq, hv]
          rfl

/-- **C9**: for every cache state, key and byte payload,
`Store(key, newStringsCacheValue(bytes))` immediately followed by
`Get(key)` returns a hit, and `GetData()` on the returned entry yields
exactly the stored bytes. -/
theorem store_then_get_returns_bytes (st : CacheState) (k : Str) (d : List Nat) (now : Nat) :
    ∃ r, (cacheGet (cacheStore (newStringsCacheValue st d now).2 k
        (newStringsCacheValue st d now).1) k).1 = some r ∧
      (heapRead (cacheGet (cacheStore (newStringsCacheValue st d now).2 k
        (newStringsCacheValue st d now).1) k).2 r).map getData = some d := by
  refine ⟨st.nextAddr + 1, ?_, ?_⟩ <;>
    simp [cacheGet, cacheStore, newStringsCacheValue, entriesFind_insert_self,
      heapRead_go_eq, heapRead.go, getData]

/-- **C3**: `Get` never modifies the key map nor any previously allocated
cell (it only allocates the copy at a fresh address), and on a hit the
returned pointer is a fresh copy: `Touch`ing it afterwards leaves the
value reachable from every cache entry unchanged. -/
theorem get_readonly_and_copies (st : CacheState) (k : Str) (now : Nat)
    (hwf : CacheWF st) :
    (cacheGet st k).2.entries = st.entries ∧
    (∀ a, a < st.nextAddr → heapRead (cacheGet st k).2 a = heapRead st a) ∧
    (∀ r, (cacheGet st k).1 = some r →
      ∀ e ∈ st.entries, heapRead (touchAddr (cacheGet st k).2 r now) e.2 = heapRead st e.2) := by
  cases hf : entriesFind k st.entries with
  | none =>
    have hq : cacheGet st k = (none, st) := by simp [cacheGet, hf]
    rw [hq]
    exact ⟨rfl, fun a _ => rfl, fun r hr => by cases hr⟩
  | some a =>
    cases hv : heapRead st a with
    | none =>
      have hq : cacheGet st k = (none, st) := by simp [cacheGet, hf, hv]
      rw [hq]
      exact ⟨rfl, fun a _ => rfl, fun r hr => by cases hr⟩
    | some v =>
      have hq : cacheGet st k = (some st.nextAddr,
          { st with heap := (st.nextAddr, v) :: st.heap, nextAddr := st.nextAddr + 1 }) := by
        simp [cacheGet, hf, hv]
      rw [hq]
      refine ⟨rfl, ?_, ?_⟩
      · intro a' ha'
        rw [heapRead_go_eq, heapRead_go_eq]
        simp only [heapRead.go]
        rw [if_neg (by omega : ¬ st.nextAddr = a')]
      · intro r hr e he
        have hr' : r = st.nextAddr := (Option.some.inj hr).symm
        subst hr'
        have hlt : e.2 < st.nextAddr := hwf.2 e he
        rw [heapRead_go_eq, heapRead_go_eq]
        simp only [touchAddr]
        rw [heapReadGo_touch_ne st.nextAddr e.2 now (by omega)]
        simp only [heapRead.go]
        rw [if_neg (by omega : ¬ st.nextAddr = e.2)]

/-- Witness for `get_readonly_and_copies` at a concrete well-formed
one-entry cache. -/
theorem get_readonly_and_copies_witness :
    (cacheGet (⟨[(strL "k", 0)], [(0, ⟨9, [1, 2]⟩)], 1⟩ : CacheState) (strL "k")).2.entries =
      [(strL "k", 0)] ∧
    heapRead (touchAddr (cacheGet (⟨[(strL "k", 0)], [(0, ⟨9, [1, 2]⟩)], 1⟩ : CacheState)
        (strL "k")).2 1 99) 0 =
      heapRead (⟨[(strL "k", 0)], [(0, ⟨9, [1, 2]⟩)], 1⟩ : CacheState) 0 := by
  have h := get_readonly_and_copies (⟨[(strL "k", 0)], [(0, ⟨9, [1, 2]⟩)], 1⟩ : CacheState)
    (strL "k") 99 (by decide)
  exact ⟨h.1, h.2.2 1 (by decide) (strL "k", 0) (by decide)⟩

/-- **C8**: an entry's `evictionTime` equals the time of its creation
(`newStringsCacheValue`, which calls `Touch`) or of its most recent
`Touch`, plus the constant TTL `5 * time.Second`; the field is always set
(the struct has no unset state in the model, matching Go where the zero
value is immediately overwritten by `Touch` inside the constructor). -/
theorem evictionTime_eq_touch_plus_ttl :
    (∀ st d now,
      heapRead (newStringsCacheValue st d now).2 (newStringsCacheValue st d now).1 =
        some ⟨now + 5 * second, d⟩) ∧
    (∀ st a now v, heapRead st a = some v →
      heapRead (touchAddr st a now) a = some ⟨now + 5 * second, v.data⟩) := by
  constructor
  · intro st d now
    simp [newStringsCacheValue, heapRead_go_eq, heapRead.go]
  · intro st a now v hv
    rw [heapRead_go_eq] at hv ⊢
    simp only [touchAddr]
    exact heapReadGo_touch a now st.heap v hv

/-- Witness for `evictionTime_eq_touch_plus_ttl` at a concrete cell. -/
theorem evictionTime_eq_touch_plus_ttl_witness :
    heapRead (touchAddr (⟨[], [(0, ⟨3, [7]⟩)], 1⟩ : CacheState) 0 11) 0 =
      some ⟨11 + 5 * second, [7]⟩ :=
  evictionTime_eq_touch_plus_ttl.2 (⟨[], [(0, ⟨3, [7]⟩)], 1⟩ : CacheState) 0 11 ⟨3, [7]⟩ rfl

/-- **C4**: `Evict` deletes exactly the expired entries, observed through
`Get`: after the sweep a key is found iff it was mapped to an unexpired
value; and the claim's scenario: store a fresh value at `t0`, run the
sweep at a time past `t0 + TTL` with no intervening touch, and the key is
gone. -/
theorem evict_deletes_exactly_expired (st : CacheState) (now : Nat) (k : Str)
    (hnd : (st.entries.map Prod.fst).Nodup) :
    ((cacheGet (cacheEvict st now) k).1.isSome = true ↔
      ∃ a v, entriesFind k st.entries = some a ∧ heapRead st a = some v ∧
        isExpired v now = false) ∧
    (∀ d t0, 5 * second + t0 < now →
      (cacheGet (cacheEvict (cacheStore (newStringsCacheValue st d t0).2 k
          (newStringsCacheValue st d t0).1) now) k).1 = none) := by
  constructor
  · exact evictGet_char st now k hnd
  · intro d t0 ht
    have hnd2 : (((cacheStore (newStringsCacheValue st d t0).2 k
        (newStringsCacheValue st d t0).1).entries).map Prod.fst).Nodup := by
      simpa [cacheStore, newStringsCacheValue] using
        entriesInsert_nodup k st.nextAddr st.entries hnd
    have hchar := evictGet_char (cacheStore (newStringsCacheValue st d t0).2 k
        (newStringsCacheValue st d t0).1) now k hnd2
    have hrhs : ¬ ∃ a v,
        entriesFind k (cacheStore (newStringsCacheValue st d t0).2 k
          (newStringsCacheValue st d t0).1).entries = some a ∧
        heapRead (cacheStore (newStringsCacheValue st d t0).2 k
          (newStringsCacheValue st d t0).1) a = some v ∧
        isExpired v now = false := by
      rintro ⟨a, v, hfa, hva, hexp⟩
      rw [show (cacheStore (newStringsCacheValue st d t0).2 k
            (newStringsCacheValue st d t0).1).entries =
          entriesInsert k st.nextAddr st.entries from rfl,
        entriesFind_insert_self] at hfa
      cases hfa
      rw [show heapRead (cacheStore (newStringsCacheValue st d t0).2 k
            (newStringsCacheValue st d t0).1) st.nextAddr =
          some ⟨t0 + 5 * second, d⟩ from by
        simp [heapRead_go_eq, cacheStore, newStringsCacheValue, heapRead.go]] at hva
      cases hva
      simp only [isExpired, decide_eq_false_iff_not, not_lt] at hexp
      omega
    cases hres : (cacheGet (cacheEvict (cacheStore (newStringsCacheValue st d t0).2 k
        (newStringsCacheValue st d t0).1) now) k).1 with
    | none => rfl
    | some r =>
      exact absurd (hchar.1 (by rw [hres]; rfl)) hrhs

/-- Witness for `evict_deletes_exactly_expired`: the store/sweep scenario
from the empty cache. -/
theorem evict_deletes_exactly_expired_witness :
    (cacheGet (cacheEvict (cacheStore (newStringsCacheValue emptyCache [7] 0).2 (strL "k")
        (newStringsCacheValue emptyCache [7] 0).1) (5 * second + 1)) (strL "k")).1 = none :=
  (evict_deletes_exactly_expired emptyCache (5 * second + 1) (strL "k") (by decide)).2
    [7] 0 (by omega)

/-- **C2 (amended)**: the sliding window requires the `Fetch` hit path's
store-back.  From the empty cache: store at `t0`; `Get` at `t1` returns a
hit with a fresh copy pointer `r`; `Touch` that copy at `t1` and
`Store(key, r)` (exactly what `Fetch` does on a hit); then as long as the
sweep time `t2` is within `t1 + TTL` — even past `t0 + TTL` — the entry
survives `Evict` and is still found. -/
theorem touch_then_store_extends_entry (k : Str) (d : List Nat) (t0 t1 t2 : Nat)
    (h01 : t0 ≤ t1) (h12 : t1 ≤ t2) (hwin : t2 ≤ t1 + 5 * second) :
    ∀ r, (cacheGet (cacheStore (newStringsCacheValue emptyCache d t0).2 k
        (newStringsCacheValue emptyCache d t0).1) k).1 = some r →
      (cacheGet (cacheEvict (cacheStore (touchAddr
        (cacheGet (cacheStore (newStringsCacheValue emptyCache d t0).2 k
          (newStringsCacheValue emptyCache d t0).1) k).2 r t1) k r) t2) k).1.isSome = true := by
  intro r hr
  have hq : cacheGet (cacheStore (newStringsCacheValue emptyCache d t0).2 k
      (newStringsCacheValue emptyCache d t0).1) k =
      (some 1, ⟨[(k, 0)], [(1, ⟨t0 + 5 * second, d⟩), (0, ⟨t0 + 5 * second, d⟩)], 2⟩) := by
    simp [cacheGet, cacheStore, newStringsCacheValue, emptyCache, entriesFind,
      heapRead_go_eq, heapRead.go, entriesInsert]
  rw [hq] at hr
  have hr1 : r = 1 := (Option.some.inj hr).symm
  subst hr1
  rw [hq]
  have htouch : touchAddr (⟨[(k, 0)],
      [(1, ⟨t0 + 5 * second, d⟩), (0, ⟨t0 + 5 * second, d⟩)], 2⟩ : CacheState) 1 t1 =
      ⟨[(k, 0)], [(1, ⟨t1 + 5 * second, d⟩), (0, ⟨t0 + 5 * second, d⟩)], 2⟩ := by
    simp [touchAddr]
  rw [htouch]
  have hstore : cacheStore (⟨[(k, 0)],
      [(1, ⟨t1 + 5 * second, d⟩), (0, ⟨t0 + 5 * second, d⟩)], 2⟩ : CacheState) k 1 =
      ⟨[(k, 1)], [(1, ⟨t1 + 5 * second, d⟩), (0, ⟨t0 + 5 * second, d⟩)], 2⟩ := by
    simp [cacheStore, entriesInsert]
  rw [hstore]
  have hnexp : isExpired ⟨t1 + 5 * second, d⟩ t2 = false := by
    simp only [isExpired, decide_eq_false_iff_not, not_lt]
    omega
  have hevict : cacheEvict (⟨[(k, 1)],
      [(1, ⟨t1 + 5 * second, d⟩), (0, ⟨t0 + 5 * second, d⟩)], 2⟩ : CacheState) t2 =
      ⟨[(k, 1)], [(1, ⟨t1 + 5 * second, d⟩), (0, ⟨t0 + 5 * second, d⟩)], 2⟩ := by
    simp [cacheEvict_eq, keepEntry, heapRead_go_eq, heapRead.go, hnexp, List.filter]
  rw [hevict]
  simp [cacheGet, entriesFind, heapRead_go_eq, heapRead.go]

/-- Witness for `touch_then_store_extends_entry`: TTL − 1ns waits on both
sides, so the sweep happens well after `t0 + TTL` yet the entry is kept. -/
theorem touch_then_store_extends_entry_witness :
    (cacheGet (cacheEvict (cacheStore (touchAddr
        (cacheGet (cacheStore (newStringsCacheValue emptyCache [7] 0).2 (strL "k")
          (newStringsCacheValue emptyCache [7] 0).1) (strL "k")).2 1 (5 * second - 1)) (strL "k") 1)
        (2 * (5 * second) - 2)) (strL "k")).1.isSome = true :=
  touch_then_store_extends_entry (strL "k") [7] 0 (5 * second - 1) (2 * (5 * second) - 2)
    (by decide) (by decide) (by decide) 1 (by decide)

/-- **C2 counterexample**: from the empty cache, store `[7]` under `"k"` at
time 0, wait `TTL − 1ns`, `Get` and `Touch` the returned entry (with no
store-back), wait another `TTL − 1ns`, then run `Evict` — the claim says
the entry must still be present, but `Get` copies the struct, so the
touch lands on the copy and the stored entry is evicted:
the final `Get` misses. -/
theorem touch_without_store_entry_lost :
    (cacheGet (cacheEvict (touchAddr
        (cacheGet (cacheStore (newStringsCacheValue emptyCache [7] 0).2 (strL "k")
          (newStringsCacheValue emptyCache [7] 0).1) (strL "k")).2
        ((cacheGet (cacheStore (newStringsCacheValue emptyCache [7] 0).2 (strL "k")
          (newStringsCacheValue emptyCache [7] 0).1) (strL "k")).1.getD 0)
        (5 * second - 1))
        (2 * (5 * second) - 2)) (strL "k")).1 = none := by decide

/-! ### Structure of the extraction fold -/

theorem findAllAux_shape :
    ∀ fuel l, ∀ mt ∈ findAllAux fuel l, ∃ f k d, mt = [f, k, d] := by
  intro fuel
  induction fuel with
  | zero => intro l mt h; cases h
  | succ fu ih =>
    intro l mt h
    cases l with
    | nil => cases h
    | cons c rest =>
      simp only [findAllAux] at h
      cases hm : matchAt (c :: rest) with
      | none =>
        rw [hm] at h
        exact ih rest mt h
      | some p =>
        obtain ⟨k, d, rest'⟩ := p
        rw [hm] at h
        simp only [List.mem_cons] at h
        cases h with
        | inl he => exact ⟨_, _, _, he⟩
        | inr hmem => exact ih rest' mt hmem

theorem buildStringMap_isSome :
    ∀ ms acc, (∀ mt ∈ ms, ∃ f k d, mt = [f, k, d]) →
      (buildStringMap ms acc).isSome = true := by
  intro ms
  induction ms with
  | nil => intro acc _; rfl
  | cons mt rest ih =>
    intro acc hshape
    obtain ⟨f, k, d, he⟩ := hshape mt (List.mem_cons_self _ _)
    subst he
    simp only [buildStringMap]
    exact ih _ (fun mt' hm => hshape mt' (List.mem_cons_of_mem _ hm))

theorem buildStringMap_find (k : Str) :
    ∀ ms acc m, buildStringMap ms acc = some m →
      mapFind k m = ms.foldl (fun acc' mt =>
        match mt with
        | [_, k', d] => if k' = k then some (bracketConv d) else acc'
        | _ => acc') (mapFind k acc) := by
  intro ms
  induction ms with
  | nil =>
    intro acc m h
    cases h
    rfl
  | cons mt rest ih =>
    intro acc m h
    match mt with
    | [] => cases h
    | [_] => cases h
    | [_, _] => cases h
    | _ :: _ :: _ :: _ :: _ => cases h
    | [f, k', d] =>
      simp only [buildStringMap] at h
      rw [List.foldl_cons]
      simp only []
      rw [ih _ m h, mapFind_mapInsert]

theorem buildStringMap_mem (k v : Str) :
    ∀ ms acc m, buildStringMap ms acc = some m → mapFind k m = some v →
      (∃ mt ∈ ms, ∃ f d, mt = [f, k, d] ∧ v = bracketConv d) ∨
        mapFind k acc = some v := by
  intro ms
  induction ms with
  | nil =>
    intro acc m h hf
    cases h
    exact Or.inr hf
  | cons mt rest ih =>
    intro acc m h hf
    match mt with
    | [] => cases h
    | [_] => cases h
    | [_, _] => cases h
    | _ :: _ :: _ :: _ :: _ => cases h
    | [f, k', d] =>
      simp only [buildStringMap] at h
      cases ih _ m h hf with
      | inl hex =>
        obtain ⟨mt', hm, f', d', he, hv⟩ := hex
        exact Or.inl ⟨mt', List.mem_cons_of_mem _ hm, f', d', he, hv⟩
      | inr hacc =>
        rw [mapFind_mapInsert] at hacc
        by_cases hk : k' = k
        · subst hk
          rw [if_pos rfl] at hacc
          exact Or.inl ⟨[f, k', d], List.mem_cons_self _ _, f, d, rfl,
            (Option.some.inj hacc).symm⟩
        · rw [if_neg hk] at hacc
          exact Or.inr hacc

/-! ### `ReplaceAll` algebra -/

theorem replaceLoop_fuel (old nw : Str) (hne : old ≠ []) :
    ∀ f1 f2 s, s.length ≤ f1 → s.length ≤ f2 →
      replaceLoop old nw f1 s = replaceLoop old nw f2 s := by
  intro f1
  induction f1 with
  | zero =>
    intro f2 s h1 _
    have hs : s = [] := List.eq_nil_of_length_eq_zero (Nat.le_zero.1 h1)
    subst hs
    cases f2 <;> rfl
  | succ f ih =>
    intro f2 s h1 h2
    cases s with
    | nil => cases f2 <;> rfl
    | cons c rest =>
      cases f2 with
      | zero => simp at h2
      | succ g =>
        simp only [replaceLoop]
        have holen : 1 ≤ old.length := by
          cases old with
          | nil => exact absurd rfl hne
          | cons _ _ => simp
        simp only [List.length_cons] at h1 h2
        split
        · rw [ih g _ (by simp [List.length_drop]; omega) (by simp [List.length_drop]; omega)]
        · rw [ih g rest (by omega) (by omega)]

theorem goReplaceAll_nil (old nw : Str) : goReplaceAll [] old nw = [] := by
  unfold goReplaceAll
  split
  · rfl
  · rfl

theorem goReplaceAll_cons_neg (old nw : Str) (c : Char) (rest : Str)
    (hne : old ≠ []) (hp : isPre old (c :: rest) = false) :
    goReplaceAll (c :: rest) old nw = c :: goReplaceAll rest old nw := by
  unfold goReplaceAll
  rw [if_neg hne, if_neg hne]
  simp only [List.length_cons, replaceLoop, hp]
  simp

theorem goReplaceAll_cons_pos (old nw : Str) (c : Char) (rest : Str)
    (hne : old ≠ []) (hp : isPre old (c :: rest) = true) :
    goReplaceAll (c :: rest) old nw =
      nw ++ goReplaceAll ((c :: rest).drop old.length) old nw := by
  unfold goReplaceAll
  rw [if_neg hne, if_neg hne]
  simp only [List.length_cons, replaceLoop, hp, if_true]
  congr 1
  have holen : 1 ≤ old.length := by
    cases old with
    | nil => exact absurd rfl hne
    | cons _ _ => simp
  exact replaceLoop_fuel old nw hne _ _ _
    (by simp only [List.length_drop, List.length_cons]; omega)
    (by simp only [List.length_drop, List.length_cons]; omega)

theorem goReplaceAll_no_occ (o : Char) (nw : Str) :
    ∀ s : Str, o ∉ s → goReplaceAll s [o, o] nw = s := by
  intro s
  induction s with
  | nil => intro _; exact goReplaceAll_nil _ _
  | cons c rest ih =>
    intro hm
    simp only [List.mem_cons] at hm
    push_neg at hm
    have hp : isPre [o, o] (c :: rest) = false := by
      simp only [isPre, Bool.and_eq_false_iff, decide_eq_false_iff_not]
      exact Or.inl hm.1
    rw [goReplaceAll_cons_neg _ _ _ _ (by simp) hp, ih hm.2]

theorem goReplaceAll_first_occ (o : Char) (nw : Str) :
    ∀ a rest : Str, o ∉ a →
      goReplaceAll (a ++ o :: o :: rest) [o, o] nw =
        a ++ nw ++ goReplaceAll rest [o, o] nw := by
  intro a
  induction a with
  | nil =>
    intro rest _
    have hp : isPre [o, o] (o :: o :: rest) = true := by simp [isPre]
    rw [List.nil_append, goReplaceAll_cons_pos _ _ _ _ (by simp) hp]
    simp
  | cons c a' ih =>
    intro rest hm
    simp only [List.mem_cons] at hm
    push_neg at hm
    have hp : isPre [o, o] (c :: (a' ++ o :: o :: rest)) = false := by
      simp only [isPre, Bool.and_eq_false_iff, decide_eq_false_iff_not]
      exact Or.inl hm.1
    rw [List.cons_append, goReplaceAll_cons_neg _ _ _ _ (by simp) hp, ih rest hm.2]
    simp

theorem extractBrazeStrings_eq (t : Str) :
    extractBrazeStrings t =
      if brazeFindAll t = [] then some [] else buildStringMap (brazeFindAll t) [] := rfl

/-- The value `extractBrazeStrings` binds a repeated key to: the converted
default of the last match with that key, in document order. -/
def lastDefault (k : Str) (ms : List (List Str)) : Option Str :=
  ms.foldl (fun acc mt =>
    match mt with
    | [_, k', d] => if k' = k then some (bracketConv d) else acc
    | _ => acc) none

/-- **C10**: extraction never fails: every match reported by the scan has
exactly the fixed arity 3 (full match, key capture, default capture), so
the defensive "failed to parse strings" branch is unreachable, and an
input with zero matches yields the empty mapping and no error. -/
theorem extract_never_errors (t : Str) :
    (∀ mt ∈ brazeFindAll t, mt.length = 3) ∧
    (extractBrazeStrings t).isSome = true ∧
    (brazeFindAll t = [] → extractBrazeStrings t = some []) := by
  refine ⟨?_, ?_, ?_⟩
  · intro mt hm
    obtain ⟨f, k, d, he⟩ := findAllAux_shape t.length t mt hm
    subst he
    rfl
  · rw [extractBrazeStrings_eq]
    split
    · rfl
    · exact buildStringMap_isSome _ _ (findAllAux_shape t.length t)
  · intro hnil
    rw [extractBrazeStrings_eq]
    simp [hnil]

/-- Witness for `extract_never_errors` on a placeholder-free input. -/
theorem extract_never_errors_witness :
    (extractBrazeStrings (strL "plain text, no placeholders")).isSome = true ∧
    extractBrazeStrings (strL "plain text, no placeholders") = some [] :=
  ⟨(extract_never_errors (strL "plain text, no placeholders")).2.1,
   (extract_never_errors (strL "plain text, no placeholders")).2.2 (by decide)⟩

/-- **C7**: for every template, the mapping returned by
`extractBrazeStrings` binds each key to the (bracket-converted) default
value of the *last* match with that key in document order — a later match
overwrites an earlier one. -/
theorem extract_last_occurrence_wins (t : Str) (m : List (Str × Str)) (k : Str)
    (h : extractBrazeStrings t = some m) :
    mapFind k m = lastDefault k (brazeFindAll t) := by
  rw [extractBrazeStrings_eq] at h
  split at h
  · next hnil =>
    cases h
    rw [hnil]
    rfl
  · rw [buildStringMap_find k _ _ _ h]
    rfl

/-- Witness for `extract_last_occurrence_wins`: the key `a` appears twice;
the mapping holds the second default `y`. -/
theorem extract_last_occurrence_wins_witness :
    mapFind (strL "a") [(strL "a", strL "y")] =
      lastDefault (strL "a")
        (brazeFindAll (strL "\x7b\x7bstrings.a|default:'x'\x7d\x7d \x7b\x7bstrings.a|default:'y'\x7d\x7d")) :=
  extract_last_occurrence_wins
    (strL "\x7b\x7bstrings.a|default:'x'\x7d\x7d \x7b\x7bstrings.a|default:'y'\x7d\x7d")
    [(strL "a", strL "y")] (strL "a") (by decide)

/-- **C6**: every value in the mapping returned by `extractBrazeStrings`
is the raw default capture with every occurrence of `[[` replaced by `{{`
and every occurrence of `]]` replaced by `}}` (`bracketConv`); and in
particular a default of the shape `a[[x]]b` (with no stray brackets) is
returned as `a{{x}}b`. -/
theorem extract_unescapes_brackets :
    (∀ t m, extractBrazeStrings t = some m →
      ∀ k v, mapFind k m = some v →
        ∃ mt ∈ brazeFindAll t, ∃ f d, mt = [f, k, d] ∧ v = bracketConv d) ∧
    (∀ a x b : Str, '[' ∉ a → ']' ∉ a → '[' ∉ x → ']' ∉ x → '[' ∉ b → ']' ∉ b →
      bracketConv (a ++ strL "[[" ++ x ++ strL "]]" ++ b) =
        a ++ strL "\x7b\x7b" ++ x ++ strL "\x7d\x7d" ++ b) := by
  constructor
  · intro t m hext k v hfind
    rw [extractBrazeStrings_eq] at hext
    split at hext
    · next hnil =>
      cases hext
      cases hfind
    · cases buildStringMap_mem k v _ _ _ hext hfind with
      | inl hex => exact hex
      | inr habs => cases habs
  · intro a x b ha1 ha2 hx1 hx2 hb1 hb2
    have e1 : strL "[[" = ['[', '['] := rfl
    have e2 : strL "]]" = [']', ']'] := rfl
    have e3 : strL "\x7b\x7b" = ['{', '{'] := rfl
    have e4 : strL "\x7d\x7d" = ['}', '}'] := rfl
    unfold bracketConv
    rw [e1, e2, e3, e4]
    have hre : (a ++ ['[', '['] ++ x ++ [']', ']'] ++ b) =
        a ++ '[' :: '[' :: (x ++ ']' :: ']' :: b) := by
      simp
    rw [hre, goReplaceAll_first_occ '[' ['{', '{'] a (x ++ ']' :: ']' :: b) ha1]
    rw [goReplaceAll_no_occ '[' ['{', '{'] (x ++ ']' :: ']' :: b) (by simp [hx1, hb1])]
    have hre2 : a ++ ['{', '{'] ++ (x ++ ']' :: ']' :: b) =
        (a ++ '{' :: '{' :: x) ++ ']' :: ']' :: b := by
      simp
    rw [hre2, goReplaceAll_first_occ ']' ['}', '}'] (a ++ '{' :: '{' :: x) b
      (by simp [ha2, hx2]), goReplaceAll_no_occ ']' ['}', '}'] b hb2]
    simp

/-- Witness for `extract_unescapes_brackets`: the concrete conversion of
the default from the spec's example. -/
theorem extract_unescapes_brackets_witness :
    bracketConv (strL "Hello [[name]]") = strL "Hello \x7b\x7bname\x7d\x7d" := by
  have h := extract_unescapes_brackets.2 (strL "Hello ") (strL "name") []
    (by decide) (by decide) (by decide) (by decide) (by decide) (by decide)
  have e1 : strL "Hello " ++ strL "[[" ++ strL "name" ++ strL "]]" ++ ([] : Str) =
      strL "Hello [[name]]" := by decide
  have e2 : strL "Hello " ++ strL "\x7b\x7b" ++ strL "name" ++ strL "\x7d\x7d" ++ ([] : Str) =
      strL "Hello \x7b\x7bname\x7d\x7d" := by decide
  rw [e1, e2] at h
  exact h

/-- **C1 counterexample**: the fixed pattern has no context capture group
and `extractBrazeStrings` returns a plain key → default mapping, so no
context annotation is produced: on the spec's concrete template the
extraction output is identical with and without the trailing HTML comment,
and the single reported match (full match, key, default) ends at the
closing `}}`, not covering the comment — refuting the claim that the
comment's text is captured as a context annotation. -/
theorem context_comment_not_captured :
    extractBrazeStrings (strL "Hi \x7b\x7b strings.greeting | default:\"Hello [[name]]\" \x7d\x7d<!-- context: \"greeting on homepage\" -->") =
      extractBrazeStrings (strL "Hi \x7b\x7b strings.greeting | default:\"Hello [[name]]\" \x7d\x7d") ∧
    brazeFindAll (strL "Hi \x7b\x7b strings.greeting | default:\"Hello [[name]]\" \x7d\x7d<!-- context: \"greeting on homepage\" -->") =
      [[strL "\x7b\x7b strings.greeting | default:\"Hello [[name]]\" \x7d\x7d",
        strL "greeting", strL "Hello [[name]]"]] := by
  constructor
  · decide
  · decide

/-- **C1 (amended)**: on the spec's template the extraction returns a
mapping with exactly one entry, key `greeting`, value `Hello {{name}}`
(brackets converted); no context is recorded — the HTML comment is
ignored entirely. -/
theorem extract_greeting_example :
    extractBrazeStrings (strL "Hi \x7b\x7b strings.greeting | default:\"Hello [[name]]\" \x7d\x7d<!-- context: \"greeting on homepage\" -->") =
      some [(strL "greeting", strL "Hello \x7b\x7bname\x7d\x7d")] := by
  decide

/-! ## `getKey`: `json.Marshal` of a `map[string]string`

`(cache *stringsCache) getKey(data)` returns `string(json.Marshal(data))`.
For a `map[string]string`, Go's `encoding/json` sorts the keys (byte-wise,
which over valid UTF-8 equals code-point lexicographic order) and emits
`{"k":"v",...}`, escaping each string with the default HTML-escaping
encoder: `"`, `\` and the control characters `\n`, `\r`, `\t` get
two-character escapes, other control characters below `0x20` and the HTML
characters `<`, `>`, `&` become `\u00xx` (lowercase hex), and U+2028 and
U+2029 become their six-character unicode escapes; every other scalar
value is emitted
verbatim.  `json.Marshal` cannot fail on this type, so the model returns
the key directly. -/

/-- Lowercase hexadecimal digit, as in Go's `encoding/json` hex table. -/
def hexDigitChar (n : Nat) : Char :=
  if n < 10 then Char.ofNat ('0'.toNat + n) else Char.ofNat ('a'.toNat + (n - 10))

/-- Go `encoding/json` escaping of one character (HTML escaping on, the
`json.Marshal` default). -/
def escapeChar (c : Char) : Str :=
  if c = '"' then ['\\', '"']
  else if c = '\\' then ['\\', '\\']
  else if c = '\n' then ['\\', 'n']
  else if c = '\r' then ['\\', 'r']
  else if c = '\t' then ['\\', 't']
  else if c.toNat < 0x20 ∨ c = '<' ∨ c = '>' ∨ c = '&' then
    ['\\', 'u', '0', '0', hexDigitChar (c.toNat / 16), hexDigitChar (c.toNat % 16)]
  else if c.toNat = 0x2028 ∨ c.toNat = 0x2029 then
    ['\\', 'u', '2', '0', '2', hexDigitChar (c.toNat % 16)]
  else [c]

/-- Go `encoding/json` escaping of a string body. -/
def escapeStr : Str → Str
  | [] => []
  | c :: rest => escapeChar c ++ escapeStr rest

/-- Value of a hexadecimal digit character (lowercase letters only, as
produced by the encoder). -/
def hexVal (c : Char) : Option Nat :=
  if '0' ≤ c ∧ c ≤ '9' then some (c.toNat - '0'.toNat)
  else if 'a' ≤ c ∧ c ≤ 'f' then some (c.toNat - 'a'.toNat + 10)
  else none

/-- Inverse of the escaper: consume an escaped string body up to the
closing unescaped `"`, returning the decoded body and remainder.  Used
only to prove the encoding injective. -/
def parseStrBody : Str → Option (Str × Str)
  | [] => none
  | c :: rest =>
    if c = '"' then some ([], rest)
    else if c = '\\' then
      match rest with
      | [] => none
      | e :: rest2 =>
        if e = '"' then (parseStrBody rest2).map fun p => ('"' :: p.1, p.2)
        else if e = '\\' then (parseStrBody rest2).map fun p => ('\\' :: p.1, p.2)
        else if e = 'n' then (parseStrBody rest2).map fun p => ('\n' :: p.1, p.2)
        else if e = 'r' then (parseStrBody rest2).map fun p => ('\r' :: p.1, p.2)
        else if e = 't' then (parseStrBody rest2).map fun p => ('\t' :: p.1, p.2)
        else if e = 'u' then
          match rest2 with
          | h1 :: h2 :: h3 :: h4 :: rest3 =>
            match hexVal h1, hexVal h2, hexVal h3, hexVal h4 with
            | some x1, some x2, some x3, some x4 =>
              (parseStrBody rest3).map fun p =>
                (Char.ofNat (((x1 * 16 + x2) * 16 + x3) * 16 + x4) :: p.1, p.2)
            | _, _, _, _ => none
          | _ => none
        else none
    else (parseStrBody rest).map fun p => (c :: p.1, p.2)

/-- One `"key":"value"` element of the marshalled object. -/
def serializeEntry (kv : Str × Str) : Str :=
  '"' :: (escapeStr kv.1 ++ '"' :: ':' :: '"' :: (escapeStr kv.2 ++ ['"']))

/-- Comma-separated elements of the marshalled object. -/
def serializeEntries : List (Str × Str) → Str
  | [] => []
  | [kv] => serializeEntry kv
  | kv :: rest => serializeEntry kv ++ ',' :: serializeEntries rest

/-- Entry order used by the encoder: sort by key (map keys are distinct,
so this is exactly Go's `sort` over the keys). -/
def rKey (p q : Str × Str) : Prop := p.1 ≤ q.1

instance : DecidableRel rKey := fun p q => inferInstanceAs (Decidable (p.1 ≤ q.1))

instance : IsTotal (Str × Str) rKey := ⟨fun p q => le_total p.1 q.1⟩

instance : IsTrans (Str × Str) rKey := ⟨fun _ _ _ h1 h2 => le_trans h1 h2⟩

/-- `(cache *stringsCache) getKey(data)`: the marshalled JSON object text
of the parameter map. -/
def getKey (m : List (Str × Str)) : Str :=
  '{' :: (serializeEntries (List.insertionSort rKey m) ++ ['}'])

theorem hexVal_hexDigitChar : ∀ n, n < 16 → hexVal (hexDigitChar n) = some n := by decide

theorem parse_escape : ∀ s rest : Str,
    parseStrBody (escapeStr s ++ '"' :: rest) = some (s, rest) := by
  intro s
  induction s with
  | nil =>
    intro rest
    rw [escapeStr, List.nil_append, parseStrBody.eq_def]
    simp
  | cons c s' ih =>
    intro rest
    rw [escapeStr, List.append_assoc]
    by_cases h1 : c = '"'
    · subst h1
      rw [show escapeChar '"' = ['\\', '"'] from rfl]
      rw [List.cons_append, List.cons_append, List.nil_append]
      rw [parseStrBody.eq_def]
      simp [ih]
    · by_cases h2 : c = '\\'
      · subst h2
        rw [show escapeChar '\\' = ['\\', '\\'] from rfl]
        rw [List.cons_append, List.cons_append, List.nil_append]
        rw [parseStrBody.eq_def]
        simp [ih]
      · by_cases h3 : c = '\n'
        · subst h3
          rw [show escapeChar '\n' = ['\\', 'n'] from rfl]
          rw [List.cons_append, List.cons_append, List.nil_append]
          rw [parseStrBody.eq_def]
          simp [ih]
        · by_cases h4 : c = '\r'
          · subst h4
            rw [show escapeChar '\r' = ['\\', 'r'] from rfl]
            rw [List.cons_append, List.cons_append, List.nil_append]
            rw [parseStrBody.eq_def]
            simp [ih]
          · by_cases h5 : c = '\t'
            · subst h5
              rw [show escapeChar '\t' = ['\\', 't'] from rfl]
              rw [List.cons_append, List.cons_append, List.nil_append]
              rw [parseStrBody.eq_def]
              simp [ih]
            · by_cases h6 : c.toNat < 0x20 ∨ c = '<' ∨ c = '>' ∨ c = '&'
              · have h256 : c.toNat < 256 := by
                  rcases h6 with h | h | h | h
                  · omega
                  · subst h; decide
                  · subst h; decide
                  · subst h; decide
                have hq : c.toNat / 16 < 16 := by omega
                have hr : c.toNat % 16 < 16 := by omega
                rw [show escapeChar c =
                    ['\\', 'u', '0', '0', hexDigitChar (c.toNat / 16),
                      hexDigitChar (c.toNat % 16)] from by
                  rw [escapeChar.eq_def]
                  rw [if_neg h1, if_neg h2, if_neg h3, if_neg h4, if_neg h5, if_pos h6]]
                simp only [List.cons_append, List.nil_append]
                rw [parseStrBody.eq_def]
                have hv0 : hexVal '0' = some 0 := by decide
                simp [hv0, hexVal_hexDigitChar _ hq, hexVal_hexDigitChar _ hr, ih]
                rw [show c.toNat / 16 * 16 + c.toNat % 16 = c.toNat by omega]
                exact Char.ofNat_toNat c
              · by_cases h7 : c.toNat = 0x2028 ∨ c.toNat = 0x2029
                · have hr : c.toNat % 16 < 16 := by omega
                  rw [show escapeChar c =
                      ['\\', 'u', '2', '0', '2', hexDigitChar (c.toNat % 16)] from by
                    rw [escapeChar.eq_def]
                    rw [if_neg h1, if_neg h2, if_neg h3, if_neg h4, if_neg h5, if_neg h6,
                      if_pos h7]]
                  simp only [List.cons_append, List.nil_append]
                  rw [parseStrBody.eq_def]
                  have hv0 : hexVal '0' = some 0 := by decide
                  have hv2 : hexVal '2' = some 2 := by decide
                  simp [hv0, hv2, hexVal_hexDigitChar _ hr, ih]
                  rw [show 8224 + c.toNat % 16 = c.toNat by rcases h7 with h | h <;> omega]
                  exact Char.ofNat_toNat c
                · rw [show escapeChar c = [c] from by
                    rw [escapeChar.eq_def]
                    rw [if_neg h1, if_neg h2, if_neg h3, if_neg h4, if_neg h5, if_neg h6,
                      if_neg h7]]
                  rw [List.cons_append, List.nil_append]
                  rw [parseStrBody.eq_def]
                  simp only []
                  rw [if_neg h1, if_neg h2]
                  rw [ih]
                  rfl

theorem escape_cancel {s1 s2 r1 r2 : Str}
    (h : escapeStr s1 ++ '"' :: r1 = escapeStr s2 ++ '"' :: r2) :
    s1 = s2 ∧ r1 = r2 := by
  have h1 := parse_escape s1 r1
  rw [h, parse_escape s2 r2] at h1
  have := Option.some.inj h1
  exact ⟨(Prod.mk.injEq _ _ _ _ ▸ this).1.symm, (Prod.mk.injEq _ _ _ _ ▸ this).2.symm⟩

theorem serializeEntries_cons_append (kv : Str × Str) (t : List (Str × Str)) (suf : Str) :
    serializeEntries (kv :: t) ++ suf =
      '"' :: (escapeStr kv.1 ++ '"' :: ':' :: '"' :: (escapeStr kv.2 ++ '"' ::
        (match t with
         | [] => suf
         | _ :: _ => ',' :: (serializeEntries t ++ suf)))) := by
  cases t with
  | nil => simp [serializeEntries, serializeEntry]
  | cons kv2 t2 =>
    show (serializeEntry kv ++ ',' :: serializeEntries (kv2 :: t2)) ++ suf = _
    simp [serializeEntry, List.append_assoc]

theorem serializeEntries_inj : ∀ l1 l2 : List (Str × Str),
    serializeEntries l1 ++ ['}'] = serializeEntries l2 ++ ['}'] → l1 = l2 := by
  intro l1
  induction l1 with
  | nil =>
    intro l2 h
    cases l2 with
    | nil => rfl
    | cons kv t =>
      rw [serializeEntries_cons_append] at h
      rw [show serializeEntries [] ++ ['}'] = ['}'] from rfl] at h
      cases h
  | cons kv t ih =>
    intro l2 h
    cases l2 with
    | nil =>
      rw [serializeEntries_cons_append] at h
      rw [show serializeEntries [] ++ ['}'] = ['}'] from rfl] at h
      cases h
    | cons kv2 t2 =>
      rw [serializeEntries_cons_append, serializeEntries_cons_append] at h
      have h' := (List.cons.injEq _ _ _ _ ▸ h).2
      obtain ⟨hk, hrest⟩ := escape_cancel h'
      have h2 := (List.cons.injEq _ _ _ _ ▸ hrest).2
      have h3 := (List.cons.injEq _ _ _ _ ▸ h2).2
      obtain ⟨hv, htail⟩ := escape_cancel h3
      cases t with
      | nil =>
        cases t2 with
        | nil =>
          obtain ⟨k1, v1⟩ := kv
          obtain ⟨k2, v2⟩ := kv2
          simp only [] at hk hv
          rw [hk, hv]
        | cons kv2' t2' =>
          simp only [] at htail
          cases htail
      | cons kv' t' =>
        cases t2 with
        | nil =>
          simp only [] at htail
          cases htail
        | cons kv2' t2' =>
          simp only [] at htail
          have h4 := (List.cons.injEq _ _ _ _ ▸ htail).2
          have ht := ih _ h4
          obtain ⟨k1, v1⟩ := kv
          obtain ⟨k2, v2⟩ := kv2
          simp only [] at hk hv
          rw [hk, hv, ht]

theorem mapFind_some_mem (k v : Str) :
    ∀ l : List (Str × Str), mapFind k l = some v → k ∈ l.map Prod.fst := by
  intro l
  induction l with
  | nil => intro h; cases h
  | cons p rest ih =>
    obtain ⟨k', v'⟩ := p
    intro h
    simp only [mapFind] at h
    split at h
    · next he => exact List.mem_cons.2 (Or.inl he.symm)
    · exact List.mem_cons.2 (Or.inr (ih h))

theorem mapFind_eq_none_of_not_mem (k : Str) :
    ∀ l : List (Str × Str), k ∉ l.map Prod.fst → mapFind k l = none := by
  intro l
  induction l with
  | nil => intro _; rfl
  | cons p rest ih =>
    obtain ⟨k', v'⟩ := p
    intro h
    simp only [List.map_cons, List.mem_cons] at h
    push_neg at h
    have hne : ¬ k' = k := fun he => h.1 he.symm
    simp only [mapFind, if_neg hne]
    exact ih h.2

theorem mapFind_perm {l1 l2 : List (Str × Str)} (hp : l1.Perm l2) :
    (l1.map Prod.fst).Nodup → ∀ k, mapFind k l1 = mapFind k l2 := by
  induction hp with
  | nil => intro _ k; rfl
  | cons x l ih =>
    intro hnd k
    obtain ⟨x1, x2⟩ := x
    simp only [List.map_cons, List.nodup_cons] at hnd
    simp only [mapFind]
    split
    · rfl
    · exact ih hnd.2 k
  | swap x y l =>
    intro hnd k
    obtain ⟨x1, x2⟩ := x
    obtain ⟨y1, y2⟩ := y
    simp only [List.map_cons, List.nodup_cons, List.mem_cons] at hnd
    push_neg at hnd
    by_cases hy : y1 = k <;> by_cases hx : x1 = k
    · exfalso
      exact hnd.1.1 (hy.trans hx.symm)
    · simp [mapFind, hy, hx]
    · simp [mapFind, hy, hx]
    · simp [mapFind, hy, hx]
  | trans h1 h2 ih1 ih2 =>
    intro hnd k
    rw [ih1 hnd k, ih2 (((h1.map Prod.fst)).nodup hnd) k]

theorem sorted_nodup_find_ext :
    ∀ l1 l2 : List (Str × Str),
      List.Sorted rKey l1 → List.Sorted rKey l2 →
      (l1.map Prod.fst).Nodup → (l2.map Prod.fst).Nodup →
      (∀ k, mapFind k l1 = mapFind k l2) → l1 = l2 := by
  intro l1
  induction l1 with
  | nil =>
    intro l2 _ _ _ _ hf
    cases l2 with
    | nil => rfl
    | cons p t =>
      obtain ⟨k2, v2⟩ := p
      exfalso
      have h := hf k2
      rw [mapFind_eq_none_of_not_mem k2 [] (by simp)] at h
      simp [mapFind] at h
  | cons p t1 ih =>
    intro l2 hs1 hs2 hn1 hn2 hf
    obtain ⟨k1, v1⟩ := p
    cases l2 with
    | nil =>
      exfalso
      have h := hf k1
      simp [mapFind] at h
    | cons q t2 =>
      obtain ⟨k2, v2⟩ := q
      rw [List.sorted_cons] at hs1 hs2
      simp only [List.map_cons, List.nodup_cons] at hn1 hn2
      have hk : k1 = k2 := by
        by_contra hne
        have h1 := hf k1
        simp only [mapFind, if_pos rfl, if_neg (fun h : k2 = k1 => hne h.symm)] at h1
        have hm1 : k1 ∈ t2.map Prod.fst := mapFind_some_mem _ _ _ h1.symm
        obtain ⟨e1, he1, hfst1⟩ := List.mem_map.1 hm1
        have hle1 : k2 ≤ k1 := hfst1 ▸ hs2.1 e1 he1
        have h2 := hf k2
        simp only [mapFind, if_pos rfl, if_neg hne] at h2
        have hm2 : k2 ∈ t1.map Prod.fst := mapFind_some_mem _ _ _ h2
        obtain ⟨e2, he2, hfst2⟩ := List.mem_map.1 hm2
        have hle2 : k1 ≤ k2 := hfst2 ▸ hs1.1 e2 he2
        exact hne (le_antisymm hle2 hle1)
      subst hk
      have hv : v1 = v2 := by
        have h := hf k1
        simp only [mapFind, if_pos rfl] at h
        exact Option.some.inj h
      subst hv
      have htails : ∀ k, mapFind k t1 = mapFind k t2 := by
        intro k
        by_cases hke : k1 = k
        · subst hke
          rw [mapFind_eq_none_of_not_mem _ _ hn1.1, mapFind_eq_none_of_not_mem _ _ hn2.1]
        · have h := hf k
          simp only [mapFind, if_neg hke] at h
          exact h
      rw [ih t2 hs1.2 hs2.2 hn1.2 hn2.2 htails]

/-- **C5**: `getKey` depends only on the contents of the parameter map and
is injective on maps: for maps with distinct keys (as Go maps are), the
serialized keys are equal exactly when the two maps contain the same
bindings — the same key/value pairs in any order yield the same key
string, and maps differing in any value or in their key sets yield
different key strings. -/
theorem getKey_canonical (m1 m2 : List (Str × Str))
    (h1 : (m1.map Prod.fst).Nodup) (h2 : (m2.map Prod.fst).Nodup) :
    getKey m1 = getKey m2 ↔ ∀ k, mapFind k m1 = mapFind k m2 := by
  have hp1 : (List.insertionSort rKey m1).Perm m1 := List.perm_insertionSort _ _
  have hp2 : (List.insertionSort rKey m2).Perm m2 := List.perm_insertionSort _ _
  have hn1 : ((List.insertionSort rKey m1).map Prod.fst).Nodup :=
    ((hp1.map Prod.fst).symm).nodup h1
  have hn2 : ((List.insertionSort rKey m2).map Prod.fst).Nodup :=
    ((hp2.map Prod.fst).symm).nodup h2
  constructor
  · intro hg k
    have hg' := (List.cons.injEq _ _ _ _ ▸ (getKey.eq_def _ ▸ getKey.eq_def _ ▸ hg)).2
    have hsorted := serializeEntries_inj _ _ hg'
    calc mapFind k m1 = mapFind k (List.insertionSort rKey m1) :=
          mapFind_perm hp1.symm h1 k
      _ = mapFind k (List.insertionSort rKey m2) := by rw [hsorted]
      _ = mapFind k m2 := mapFind_perm hp2 hn2 k
  · intro hf
    have heq : List.insertionSort rKey m1 = List.insertionSort rKey m2 := by
      refine sorted_nodup_find_ext _ _ (List.sorted_insertionSort _ _)
        (List.sorted_insertionSort _ _) hn1 hn2 ?_
      intro k
      calc mapFind k (List.insertionSort rKey m1) = mapFind k m1 := mapFind_perm hp1 hn1 k
        _ = mapFind k m2 := hf k
        _ = mapFind k (List.insertionSort rKey m2) := mapFind_perm hp2.symm h2 k
    unfold getKey
    rw [heq]

/-- Witness for `getKey_canonical`: the spec's example, the two insertion
orders of `{"a":"1","b":"2"}` yield the same key string. -/
theorem getKey_canonical_witness :
    getKey [(strL "a", strL "1"), (strL "b", strL "2")] =
      getKey [(strL "b", strL "2"), (strL "a", strL "1")] := by
  refine (getKey_canonical _ _ (by decide) (by decide)).mpr ?_
  intro k
  by_cases ha : strL "a" = k
  · rw [← ha]
    rfl
  · by_cases hb : strL "b" = k
    · rw [← hb]
      rfl
    · simp [mapFind, ha, hb]
